import Mathlib

/-!
Verification development for the congressional-speeches pipeline.

The definitions below are a shallow embedding of the Python sources:
`speeches_scraper.py` (text cleaning, speech segmentation, congress-number
assignment) and `match_politicians_info.py` (the speaker-matching cascade).
Text is modelled as `List Char` (Lean strings are wrappers around such
lists), dataframes as lists of records with `Option` fields standing for
missing values (NaN), and the two external libraries (`unidecode`,
`fuzzywuzzy`) as, respectively, the identity on the ASCII texts considered
here and an abstract similarity parameter with range 0..100 (the contract
stated in the specification).  All recursion is fuel-based so every
definition evaluates on concrete inputs.
-/

/-! ## Basic character helpers -/

/-- Python regex `\s` (ASCII part): space, tab, newline, carriage return,
vertical tab, form feed. -/
def pySpace (c : Char) : Bool :=
  c = ' ' || c = '\t' || c = '\n' || c = '\r' || c = '\x0b' || c = '\x0c'

/-- Python regex `\w` (ASCII part): letters, digits, underscore. -/
def pyWord (c : Char) : Bool :=
  c.isAlpha || c.isDigit || c = '_'

/-- Character class `[A-Z]`. -/
def isUpperAZ (c : Char) : Bool :=
  'A' ≤ c && c ≤ 'Z'

/-- Class `[A-Z0-9.]` used in the file-path stamp pattern. -/
def isUpperDigitDot (c : Char) : Bool :=
  isUpperAZ c || c.isDigit || c = '.'

/-- Class `[A-Z0-9]`. -/
def isUpperDigit (c : Char) : Bool :=
  isUpperAZ c || c.isDigit

/-- Class `[\w ]` (word character or plain space). -/
def pyWordSp (c : Char) : Bool :=
  pyWord c || c = ' '

/-! ## Basic list-of-characters helpers -/

/-- `pre` is an initial segment of `l`. -/
def prefB : List Char → List Char → Bool
  | [], _ => true
  | _ :: _, [] => false
  | a :: pre, b :: l => a = b && prefB pre l

/-- `needle` occurs contiguously somewhere in `hay`
(Python `needle in hay`). -/
def containsTok (hay needle : List Char) : Bool :=
  match hay with
  | [] => prefB needle []
  | _ :: rest => prefB needle hay || containsTok rest needle

/-- The literal `lit` occurs at index `i` of `s`. -/
def litAt (s : List Char) (i : Nat) (lit : List Char) : Bool :=
  prefB lit (s.drop i)

/-- Length of the maximal run of characters satisfying `p` starting at
index `i`. -/
def runLen (p : Char → Bool) (s : List Char) (i : Nat) : Nat :=
  ((s.drop i).takeWhile p).length

/-- Length of the maximal whitespace run at `i`. -/
def wsRun (s : List Char) (i : Nat) : Nat :=
  runLen pySpace s i

/-- Remove trailing whitespace. -/
def dropTrailingWs (l : List Char) : List Char :=
  (l.reverse.dropWhile pySpace).reverse

/-- Python `str.strip()` restricted to whitespace. -/
def stripWs (l : List Char) : List Char :=
  dropTrailingWs (l.dropWhile pySpace)

/-- Lowercase every character (Python `str.lower()` on the ASCII texts
considered here). -/
def pyLowerStr (s : String) : String :=
  String.mk (s.data.map Char.toLower)

/-- The external `unidecode` transliteration library (not part of this
repository); it is the identity on the diacritic-free ASCII texts this
development works with, and is modelled as such. -/
def unidecodeStr (s : String) : String := s

/-- Keep the first occurrence of every value, dropping later duplicates
(pandas `drop_duplicates` / the order-preserving part of `unique()`).
Fuel-based; `fuel = l.length` always suffices because `filter` never
lengthens a list. -/
def dedupKeepFirstAux {α : Type} [DecidableEq α] : Nat → List α → List α
  | _, [] => []
  | 0, l => l
  | fuel + 1, x :: r =>
      x :: dedupKeepFirstAux fuel (r.filter (fun y => ! decide (y = x)))

def dedupKeepFirst {α : Type} [DecidableEq α] (l : List α) : List α :=
  dedupKeepFirstAux l.length l

/-- Split on the separator `" of "` (Python `x.split(" of ")`):
leftmost, non-overlapping occurrences.  Fuel-based scan. -/
def splitOfAux : Nat → List Char → List Char → List (List Char)
  | _, [], acc => [acc.reverse]
  | 0, l, acc => [acc.reverse ++ l]
  | fuel + 1, c :: rest, acc =>
      if prefB [' ', 'o', 'f', ' '] (c :: rest) then
        acc.reverse :: splitOfAux fuel (rest.drop 3) []
      else
        splitOfAux fuel rest (c :: acc)

def splitOf (l : List Char) : List (List Char) :=
  splitOfAux l.length l []

/-- Python `str.split()`: split on whitespace runs, no empty tokens. -/
def wsTokensAux : List Char → List Char → List (List Char)
  | [], cur => if cur.isEmpty then [] else [cur.reverse]
  | c :: rest, cur =>
      if pySpace c then
        if cur.isEmpty then wsTokensAux rest []
        else cur.reverse :: wsTokensAux rest []
      else wsTokensAux rest (c :: cur)

def wsTokens (l : List Char) : List (List Char) :=
  wsTokensAux l []

/-! ## Data model of the matching cascade (`match_politicians_info.py`)

A legislator-roster row.  The per-congress roster files are read with
`astype(str)` by the orchestration layer, so every field is a plain
string; the biographical columns not consulted by the matching logic are
omitted.  The roster built by `process_legislators_data` has neither a
`sort_name` nor an `area` column, so the corresponding optional branches
of `_preprocess_politician_info` do not fire, and since `astype(str)`
leaves no missing values, the fill-threshold column pruning drops
nothing. -/

structure Pol where
  name : String
  first_name : String
  last_name : String
  state : String
deriving DecidableEq

/-- A speech row as produced by the extractor (the dataframe handed to
`CongressionalSpeechMatcher`), with its dataframe index `idx`. -/
structure Speech where
  idx : Nat
  speaker : String
  speech : String
  congress_number : Nat
deriving DecidableEq

/-- A speech row after `_preprocess_speaker_names`: speaker lowered and
state-stripped, with the derived `state`, `first_name`, `last_name`
columns (`Option` = NaN). -/
structure PSpeech where
  idx : Nat
  speaker : String
  state : Option String
  first_name : Option String
  last_name : String
  congress_number : Nat
  speech : String
deriving DecidableEq

/-- A row of the combined matched dataframe.  Every column is optional
because the positional concatenation in `_match_by_fuzzy_long_name` can
pad rows with NaN. -/
structure Row where
  speech_id : Option Nat
  speaker : Option String
  speech : Option String
  congress_number : Option Nat
  state : Option String
  first_name : Option String
  last_name : Option String
  name : Option String
  matched_by : Option String
  similarity_score : Option Nat
deriving DecidableEq

/-- `_preprocess_politician_info`: lower-case the display name and the
name parts, transliterate the display name. -/
def polPre (p : Pol) : Pol :=
  { p with
    name := unidecodeStr (pyLowerStr p.name)
    first_name := pyLowerStr p.first_name
    last_name := pyLowerStr p.last_name }

/-- `_preprocess_speaker_names` on one row: lower-case and transliterate
the speaker, split off the state after the last `" of "`, keep the text
before the first `" of "` as the name, then take first/last whitespace
tokens.  Returns `none` (Python `IndexError`) when no token remains. -/
def preprocessSpeech (sp : Speech) : Option PSpeech :=
  let low := (unidecodeStr (pyLowerStr sp.speaker)).data
  let parts := splitOf low
  let hasOf := decide (parts.length > 1)
  let nameL := if hasOf then parts.headD low else low
  let stateO := if hasOf then some (String.mk (parts.getLastD low)) else none
  let toks := wsTokens nameL
  match toks.getLast? with
  | none => none
  | some lastTok =>
      some { idx := sp.idx
             speaker := String.mk nameL
             state := stateO
             first_name :=
               if toks.length > 1 then some (String.mk (toks.headD [])) else none
             last_name := String.mk lastTok
             congress_number := sp.congress_number
             speech := sp.speech }

/-- The three key columns an exact tier can join on. -/
inductive Col
  | state
  | first_name
  | last_name
deriving DecidableEq

def colName : Col → String
  | .state => "state"
  | .first_name => "first_name"
  | .last_name => "last_name"

def colS (s : PSpeech) : Col → Option String
  | .state => s.state
  | .first_name => s.first_name
  | .last_name => some s.last_name

def colP (p : Pol) : Col → String
  | .state => p.state
  | .first_name => p.first_name
  | .last_name => p.last_name

/-- The key tuple of a roster row for the key-column set `K`. -/
def projKey (K : List Col) (p : Pol) : List String :=
  K.map (colP p)

/-- Number of roster rows sharing `p`'s key tuple. -/
def keyCount (rost : List Pol) (K : List Col) (p : Pol) : Nat :=
  (rost.filter (fun q => decide (projKey K q = projKey K p))).length

/-- `drop_duplicates(subset=K, keep=False)`: the roster rows whose key
tuple is unique across the whole roster. -/
def uniqueSubset (rost : List Pol) (K : List Col) : List Pol :=
  rost.filter (fun p => decide (keyCount rost K p = 1))

/-- The speech agrees with the roster row on every column of `K`. -/
def keyMatchesB (s : PSpeech) (p : Pol) (K : List Col) : Bool :=
  K.all (fun c => decide (colS s c = some (colP p c)))

def commaJoinStr : List String → String
  | [] => ""
  | [x] => x
  | x :: y :: r => x ++ ", " ++ commaJoinStr (y :: r)

/-- The merged row for an exact-tier match: speech columns from the
speech, the `state`/`first_name`/`last_name` columns from the roster row
(the speech-side copies outside `K` are dropped before the merge, and on
`K` the two sides agree), plus the tier metadata. -/
def mkRowExact (K : List Col) (s : PSpeech) (p : Pol) : Row :=
  { speech_id := some s.idx
    speaker := some s.speaker
    speech := some s.speech
    congress_number := some s.congress_number
    state := some p.state
    first_name := some p.first_name
    last_name := some p.last_name
    name := some p.name
    matched_by := some (commaJoinStr (K.map colName))
    similarity_score := some 100 }

/-- `_match_speakers_with_criteria`: inner-join the speeches to the
unique-key subset of the roster on `K` (left order preserved, at most
one roster row per speech since the right side is key-unique). -/
def matchWithCriteria (rost : List Pol) (sp : List PSpeech) (K : List Col) :
    List Row :=
  sp.flatMap (fun s =>
    ((uniqueSubset rost K).filter (fun p => keyMatchesB s p K)).map
      (mkRowExact K s))

/-- One fold step of the best-candidate selection. -/
def bcStep (sim : String → String → Nat) (speaker : String)
    (acc : Option (String × Nat)) (n : String) : Option (String × Nat) :=
  match acc with
  | none => some (n, sim speaker n)
  | some (bn, bs) =>
      if sim speaker n > bs then some (n, sim speaker n) else some (bn, bs)

/-- `fuzzywuzzy.process.extract(..., limit=1)`: highest score wins, the
earliest candidate on ties (stable selection). -/
def bestCandidate (sim : String → String → Nat) (speaker : String)
    (names : List String) : Option (String × Nat) :=
  names.foldl (bcStep sim speaker) none

/-- Candidate roster rows for one fuzzy match: restricted to the
speech's state when present. -/
def fuzzyCands (rost : List Pol) (s : PSpeech) : List Pol :=
  match s.state with
  | some st => rost.filter (fun (p : Pol) => decide (p.state = st))
  | none => rost

/-- Best-candidate acceptance: take the best-scoring candidate name and
accept it when the score meets the threshold.  The accepted roster row
is the first one carrying the chosen name (the `squeeze()` in the source
assumes that name is carried by a single row). -/
def fuzzyAccept (sim : String → String → Nat) (cands : List Pol)
    (threshold : Nat) (spk : String) (mbv : String) :
    Option (Pol × Nat × String) :=
  match bestCandidate sim spk (cands.map (fun (p : Pol) => p.name)) with
  | none => none
  | some (nm, score) =>
      if score ≥ threshold then
        match cands.find? (fun p => decide (p.name = nm)) with
        | some p => some (p, score, mbv)
        | none => none
      else none

/-- One iteration of the fuzzy-matching loop: filter the roster to the
speech's state when present, score the speech's raw lower-cased speaker
against every candidate's display name, and accept the single best
candidate at or above the threshold. -/
def fuzzyOne (sim : String → String → Nat) (rost : List Pol) (threshold : Nat)
    (s : PSpeech) : Option (Pol × Nat × String) :=
  fuzzyAccept sim (fuzzyCands rost s) threshold s.speaker
    (if s.state.isSome then "long_name, state" else "long_name")

/-- The positional `pd.concat(..., axis=1)` of the speech columns with
the accepted fuzzy matches: the i-th speech row is glued to the i-th
accepted match, and once the (shorter) match list is exhausted the match
columns are NaN-padded. -/
def padRows : List PSpeech → List (Pol × Nat × String) → List Row
  | [], _ => []
  | s :: ss, [] =>
      { speech_id := some s.idx
        speaker := some s.speaker
        speech := some s.speech
        congress_number := some s.congress_number
        state := none
        first_name := none
        last_name := none
        name := none
        matched_by := none
        similarity_score := none } :: padRows ss []
  | s :: ss, (p, score, mb) :: bs =>
      { speech_id := some s.idx
        speaker := some s.speaker
        speech := some s.speech
        congress_number := some s.congress_number
        state := some p.state
        first_name := some p.first_name
        last_name := some p.last_name
        name := some p.name
        matched_by := some mb
        similarity_score := some score } :: padRows ss bs

/-- `_match_by_fuzzy_long_name` (default threshold 50). -/
def matchByFuzzyLongName (sim : String → String → Nat) (rost : List Pol)
    (sp : List PSpeech) (threshold : Nat) : List Row :=
  let best := sp.filterMap (fuzzyOne sim rost threshold)
  if best.isEmpty then [] else padRows sp best

/-- Case-insensitive containment test used by
`str.contains(pattern, case=False, na=False)`; the curated patterns are
plain text, so the regex search is a literal substring search. -/
def containsCI (hay pat : String) : Bool :=
  containsTok (pyLowerStr hay).data (pyLowerStr pat).data

/-- Whether a combined row's speaker contains the pattern; NaN speakers
count as not containing (`na=False`). -/
def rowSpeakerContains (r : Row) (pat : String) : Bool :=
  match r.speaker with
  | some s => containsCI s pat
  | none => false

/-- `_cleanup_long_name_matches`: successively filter out the rows whose
speaker contains one of the curated patterns. -/
def cleanupLongNameMatches (df : List Row) (pats : List String) : List Row :=
  pats.foldl (fun d pat => d.filter (fun r => ! rowSpeakerContains r pat)) df

/-- The curated per-congress lists of known-bad fuzzy-match substrings
(`match_speakers`, lines 75-84). -/
def removePatterns (congress : Nat) : List String :=
  if congress = 115 then ["barraga n"]
  else if congress = 116 then ["luja n", "barraga n", "luga n"]
  else if congress = 117 then ["barraga n", "c rdenas"]
  else if congress = 118 then ["barraga n", "jackson lee", "cline member"]
  else []

/-- `_finalize_matched_dataset`: drop exact-duplicate rows (the `term`
column dropped there does not exist on these rosters). -/
def finalizeMatchedDataset (df : List Row) : List Row :=
  dedupKeepFirst df

/-- The abnormal terminations `match_speakers` can take: the
`name_parts[-1]` IndexError during speaker preprocessing, the
`assert len(congress) == 1` failure, and the KeyError raised by
`_cleanup_long_name_matches` when `_match_by_fuzzy_long_name` returned
the column-less `pd.DataFrame()` (no accepted match in the bucket) and
the congress's pattern list is nonempty, so that `df["speaker"]` is
taken on a frame with no columns. -/
inductive MatchErr
  | indexError
  | assertionError
  | keyError
deriving DecidableEq

instance {ε α : Type} [DecidableEq ε] [DecidableEq α] :
    DecidableEq (Except ε α) := fun x y =>
  match x, y with
  | .error a, .error b =>
      if h : a = b then .isTrue (by rw [h])
      else .isFalse (by intro hc; cases hc; exact h rfl)
  | .error _, .ok _ => .isFalse (by intro hc; cases hc)
  | .ok _, .error _ => .isFalse (by intro hc; cases hc)
  | .ok a, .ok b =>
      if h : a = b then .isTrue (by rw [h])
      else .isFalse (by intro hc; cases hc; exact h rfl)

/-- `CongressionalSpeechMatcher.match_speakers`.  `sim` is the abstract
string-similarity scorer standing for `fuzzywuzzy` (range 0..100 by the
stated contract).  Note that the residual for the fuzzy tier is computed
with `~df_all_three.index.isin(df_matched_all_3.index)` where the merge
result carries a fresh RangeIndex `0..m-1`, so the test compares original
speech indices against the *positions* `0..m-1`.  When the bucket-4
fuzzy tier accepts no match it returns the column-less `pd.DataFrame()`
(modelled as the empty row list), and the cleanup then raises KeyError
on `df["speaker"]` as soon as the congress's pattern list is nonempty;
with an empty pattern list the cleanup loop body never runs and the
empty frame passes through. -/
def matchSpeakers (sim : String → String → Nat) (speeches : List Speech)
    (roster : List Pol) : Except MatchErr (List Row) :=
  match speeches.mapM preprocessSpeech with
  | none => .error .indexError
  | some ps =>
    let rost := roster.map polPre
    let b1 := ps.filter (fun s => s.state.isSome && s.first_name.isSome)
    let b2 := ps.filter (fun s => s.state.isSome && s.first_name.isNone)
    let b3 := ps.filter (fun s => s.state.isNone && s.first_name.isNone)
    let b4 := ps.filter (fun s => s.first_name.isSome && s.state.isNone)
    let m1 := matchWithCriteria rost b1 [Col.state, Col.first_name, Col.last_name]
    let m2 := matchWithCriteria rost b2 [Col.state, Col.last_name]
    let m3 := matchWithCriteria rost b3 [Col.last_name]
    let remaining := b1.filter (fun s => ! decide (s.idx < m1.length))
    let m4 := matchByFuzzyLongName sim rost remaining 50
    let m5 := matchByFuzzyLongName sim rost b4 50
    let congs := dedupKeepFirst (b4.map (fun s => s.congress_number))
    if congs.length = 1 then
      let pats := removePatterns (congs.headD 0)
      if m5.isEmpty && ! pats.isEmpty then .error .keyError
      else
        .ok (finalizeMatchedDataset
          (m1 ++ m2 ++ m3 ++ m4 ++ cleanupLongNameMatches m5 pats))
    else .error .assertionError

/-! ## Congress-number assignment (`assign_congress_number`)

Timestamps are modelled as `y * 10000 + m * 100 + d`, on which the usual
numeric order agrees with chronological order for calendar dates. -/

def assignCongressNumber : Option Nat → Option Nat
  | none => none
  | some d =>
      if d < 20170103 then some 114
      else if d < 20190103 then some 115
      else if d < 20210103 then some 116
      else if d < 20230103 then some 117
      else some 118

/-- January 3 of the first year of congress `n`, for the covered range. -/
def congressStart (n : Nat) : Nat :=
  if n = 114 then 20150103
  else if n = 115 then 20170103
  else if n = 116 then 20190103
  else if n = 117 then 20210103
  else if n = 118 then 20230103
  else if n = 119 then 20250103
  else 0

/-! ## Text normalization (`CongressionalSpeechExtractor._clean_text`)

Each cleaning rule is a `re.sub`: scan left to right, replace every
non-overlapping leftmost match, resume after the matched region, with
zero-width look-behind reading the original text.  A rule's step function
receives the previous original character and the remaining text and
returns the replacement together with the matched length minus one. -/

def reSubScanAux (step : Option Char → List Char → Option (List Char × Nat)) :
    Nat → Option Char → List Char → List Char
  | _, _, [] => []
  | 0, _, l => l
  | fuel + 1, prev, c :: rest =>
      match step prev (c :: rest) with
      | some (repl, k) =>
          repl ++
            reSubScanAux step fuel (((c :: rest).take (k + 1)).getLast?)
              (rest.drop k)
      | none => c :: reSubScanAux step fuel (some c) rest

/-- Run one substitution rule over the whole text (`fuel = l.length`
always suffices: every step consumes at least one character). -/
def reSub (step : Option Char → List Char → Option (List Char × Nat))
    (l : List Char) : List Char :=
  reSubScanAux step l.length none l

/-- Rule 1: `\nf\s\n` becomes a `<SPEAKER_BREAK>` token. -/
def stepBreak (_ : Option Char) (l : List Char) : Option (List Char × Nat) :=
  match l with
  | '\n' :: 'f' :: c :: '\n' :: _ =>
      if pySpace c then some (" <SPEAKER_BREAK> ".data, 3) else none
  | _ => none

/-- Rule 2: a maximal whitespace run `\s+` becomes a single space. -/
def stepWs (_ : Option Char) (l : List Char) : Option (List Char × Nat) :=
  match l with
  | c :: rest =>
      if pySpace c then some ([' '], (rest.takeWhile pySpace).length) else none
  | [] => none

/-- Rule 3: a newline not preceded by sentence-ending punctuation
(`(?<![.!?])\n`) becomes a space. -/
def stepNl (prev : Option Char) (l : List Char) : Option (List Char × Nat) :=
  match l with
  | '\n' :: _ =>
      match prev with
      | some p => if p = '.' || p = '!' || p = '?' then none else some ([' '], 0)
      | none => some ([' '], 0)
  | _ => none

/-- Rule 4: rejoin a hyphen-broken word, `(\w+)-\s+(\w+)` to `\1\2`. -/
def stepHyphen (_ : Option Char) (l : List Char) : Option (List Char × Nat) :=
  match l with
  | c :: _ =>
      if pyWord c then
        let a := (l.takeWhile pyWord).length
        match l.drop a with
        | '-' :: l3 =>
            let b := (l3.takeWhile pySpace).length
            if b ≥ 1 then
              let l4 := l3.drop b
              let cl := (l4.takeWhile pyWord).length
              if cl ≥ 1 then some (l.take a ++ l4.take cl, a + b + cl)
              else none
            else none
        | _ => none
      else none
  | [] => none

/-- Template alphabet for the fixed boilerplate patterns: a literal, an
exact count of digits, or a maximal nonempty run of a character class
(each run is followed in these templates by a character outside the
class, matching the greedy regex semantics). -/
inductive Tok
  | lit (s : List Char)
  | digits (n : Nat)
  | clsRun (p : Char → Bool)

/-- Match a template at the head of `l`, returning the matched length. -/
def matchTmpl : List Tok → List Char → Option Nat
  | [], _ => some 0
  | .lit s :: ts, l =>
      if prefB s l then (matchTmpl ts (l.drop s.length)).map (· + s.length)
      else none
  | .digits n :: ts, l =>
      if (l.take n).length = n && (l.take n).all Char.isDigit then
        (matchTmpl ts (l.drop n)).map (· + n)
      else none
  | .clsRun p :: ts, l =>
      let r := (l.takeWhile p).length
      if r ≥ 1 then (matchTmpl ts (l.drop r)).map (· + r) else none

/-- A template-based removal rule (replacement is empty). -/
def stepTmpl (ts : List Tok) (_ : Option Char) (l : List Char) :
    Option (List Char × Nat) :=
  match matchTmpl ts l with
  | some n => some ([], n - 1)
  | none => none

/-- Rule 5: `Jkt \d{6} PO \d{5} Frm \d{5} Fmt \d{4} Sfmt \d{4}`. -/
def tmplJkt : List Tok :=
  [.lit "Jkt ".data, .digits 6, .lit " PO ".data, .digits 5,
   .lit " Frm ".data, .digits 5, .lit " Fmt ".data, .digits 4,
   .lit " Sfmt ".data, .digits 4]

/-- Rule 6: `E:\\CR\\FM\\[A-Z0-9.]+ [A-Z0-9]+`. -/
def tmplPath : List Tok :=
  [.lit "E:\\CR\\FM\\".data, .clsRun isUpperDigitDot, .lit " ".data,
   .clsRun isUpperDigit]

/-- Rule 7: the fixed printer line. -/
def tmplDM : List Tok :=
  [.lit "DMWilson on DSKJM0X7X2PROD with".data]

/-- Rule 8: `VerDate \w+ \d{2} \d{4} \d{2}:\d{2} \w+ \d{2}, \d{4}`. -/
def tmplVer : List Tok :=
  [.lit "VerDate ".data, .clsRun pyWord, .lit " ".data, .digits 2,
   .lit " ".data, .digits 4, .lit " ".data, .digits 2, .lit ":".data,
   .digits 2, .lit " ".data, .clsRun pyWord, .lit " ".data, .digits 2,
   .lit ", ".data, .digits 4]

/-- Rule 10: the fixed recycled-paper line. -/
def tmplPdnted : List Tok :=
  [.lit "Pdnted on recycled papfil".data]

/-- Rule 9: `\b(CONGRESSIONAL|RECORD|HOUSE|DAILY|DIGEST)\b` (word
boundaries on both sides; the alternatives are pairwise incompatible at
any one position). -/
def stepHeader (prev : Option Char) (l : List Char) : Option (List Char × Nat) :=
  let wb := match prev with | none => true | some p => ! pyWord p
  if wb then
    let words := ["CONGRESSIONAL", "RECORD", "HOUSE", "DAILY", "DIGEST"]
    (words.filterMap (fun w =>
        if prefB w.data l then
          match l.drop w.data.length with
          | [] => some (([] : List Char), w.data.length - 1)
          | d :: _ => if pyWord d then none else some ([], w.data.length - 1)
        else none)).head?
  else none

/-- `_clean_text`: the ten substitution rules in source order, then
`strip()`. -/
def cleanTextL (l : List Char) : List Char :=
  stripWs
    (reSub (stepTmpl tmplPdnted)
      (reSub stepHeader
        (reSub (stepTmpl tmplVer)
          (reSub (stepTmpl tmplDM)
            (reSub (stepTmpl tmplPath)
              (reSub (stepTmpl tmplJkt)
                (reSub stepHyphen
                  (reSub stepNl
                    (reSub stepWs
                      (reSub stepBreak l))))))))))

def cleanText (s : String) : String :=
  String.mk (cleanTextL s.data)

/-! ## Speech segmentation (`CongressionalSpeechExtractor.extract_speeches`)

The extraction pattern is

  `\b(Mr\.|Ms\.|Mrs\.|Miss)\s+([A-Z]+(?:\s[A-Z]+)*)\s*(of [\w ]*)?\.?\s*`
  `(?:Mr\.|Madam)\s*Speaker,\s*(?P<speech>[\s\S]*?)(?= ... )`

with the look-ahead alternatives: `\bThe SPEAKER pro tempore\b`, a
courtesy title followed by `Speaker, I reserve the balance of my time`,
the next opener (without the trailing comma), the `<SPEAKER_BREAK>`
token, `$`, and a run of five or more all-capital tokens.  `re.findall`
takes leftmost non-overlapping matches; the lazy speech group together
with the zero-width look-ahead means the body ends at the first position
at or after the opener's end where some alternative matches.  The opener
search below enumerates the candidate parses of the greedy name and
jurisdiction groups in the engine's preference order (longest first,
giving back on failure), which is exhaustive, so its success is exactly
matchability. -/

/-- End positions of `p+` starting at `i`, longest first (empty when no
character at `i` satisfies `p`). -/
def plusEnds (p : Char → Bool) (s : List Char) (i : Nat) : List Nat :=
  let r := runLen p s i
  (List.range r).map (fun k => i + r - k)

/-- End positions of `p*` starting at `i`, longest first (always
includes `i` itself, last). -/
def clsStarEnds (p : Char → Bool) (s : List Char) (i : Nat) : List Nat :=
  let r := runLen p s i
  (List.range (r + 1)).map (fun k => i + r - k)

/-- End positions of `(?:\s[A-Z]+)*` starting at `i` in the greedy
engine's preference order: more repetitions first, each repetition's
capital run longest first, the zero-repetition end `i` last. -/
def nameContEnds (s : List Char) : Nat → Nat → List Nat
  | 0, i => [i]
  | fuel + 1, i =>
      let reps :=
        match s[i]? with
        | some c => if pySpace c then plusEnds isUpperAZ s (i + 1) else []
        | none => []
      reps.flatMap (fun e => nameContEnds s fuel e) ++ [i]

def firstSome {α β : Type} (f : α → Option β) : List α → Option β
  | [] => none
  | a :: r =>
      match f a with
      | some b => some b
      | none => firstSome f r

/-- Position after the courtesy title `(Mr\.|Ms\.|Mrs\.|Miss)` at `p`
(the four alternatives are pairwise incompatible). -/
def titleAt (s : List Char) (p : Nat) : Option Nat :=
  if litAt s p "Mr.".data then some (p + 3)
  else if litAt s p "Ms.".data then some (p + 3)
  else if litAt s p "Mrs.".data then some (p + 4)
  else if litAt s p "Miss".data then some (p + 4)
  else none

/-- `\b` immediately before a word character at position `p`. -/
def wordBoundaryAt (s : List Char) (p : Nat) : Bool :=
  match p with
  | 0 => true
  | q + 1 =>
      match s[q]? with
      | some c => ! pyWord c
      | none => true

/-- `\.?\s*(?:Mr\.|Madam)\s*Speaker` from `j`, plus `,\s*` when
`wc` is true (the opener form); returns the end position.  The
whitespace runs are forced maximal because each is followed by a
non-space literal. -/
def restTail (s : List Char) (j : Nat) (wc : Bool) : Option Nat :=
  let j2 := j + wsRun s j
  let afterMr :=
    if litAt s j2 "Mr.".data then some (j2 + 3)
    else if litAt s j2 "Madam".data then some (j2 + 5)
    else none
  match afterMr with
  | none => none
  | some j3 =>
      let j4 := j3 + wsRun s j3
      if wc then
        if litAt s j4 "Speaker,".data then some (j4 + 8 + wsRun s (j4 + 8))
        else none
      else if litAt s j4 "Speaker".data then some (j4 + 7) else none

/-- The optional dot `\.?` prefers to consume a dot and gives it back on
failure of the rest. -/
def restFrom (s : List Char) (j : Nat) (wc : Bool) : Option Nat :=
  (if litAt s j ".".data then restTail s (j + 1) wc else none) <|>
    restTail s j wc

/-- The jurisdiction group `(of [\w ]*)` at `w1` followed by the rest of
the opener: tries the greedy class run longest first; returns the group
end and the opener end. -/
def ofPath (s : List Char) (w1 : Nat) (wc : Bool) : Option (Nat × Nat) :=
  if litAt s w1 "of ".data then
    firstSome (fun k => (restFrom s k wc).map (fun fin => (k, fin)))
      (clsStarEnds pyWordSp s (w1 + 3))
  else none

/-- `\s*(of [\w ]*)?\.?\s*(?:Mr\.|Madam)\s*Speaker[,]` after the name
group ends at `e`: the optional group prefers to participate.  Returns
(group start, group end, opener end); start = end encodes an absent
group (an unmatched group is the empty string in `findall` output). -/
def openerTail (s : List Char) (e : Nat) (wc : Bool) :
    Option (Nat × Nat × Nat) :=
  let w1 := e + wsRun s e
  match ofPath s w1 wc with
  | some (k, fin) => some (w1, k, fin)
  | none => (restFrom s w1 wc).map (fun fin => (w1, w1, fin))

/-- A successful opener parse: the name capture spans
`[nameS, nameE)`, the jurisdiction capture `[ofS, ofE)`, and the match
ends at `fin` (for the with-comma form, where the speech group starts). -/
structure OpenerParse where
  nameS : Nat
  nameE : Nat
  ofS : Nat
  ofE : Nat
  fin : Nat
deriving DecidableEq

/-- The full opener at position `p` (`wc` selects the trailing
`,\s*` of the real opener versus the comma-less look-ahead form). -/
def openerAt (s : List Char) (p : Nat) (wc : Bool) : Option OpenerParse :=
  if wordBoundaryAt s p then
    match titleAt s p with
    | none => none
    | some t =>
        let w := wsRun s t
        if w = 0 then none
        else
          let q := t + w
          firstSome
            (fun a =>
              firstSome
                (fun e =>
                  (openerTail s e wc).map fun tr =>
                    { nameS := q, nameE := e, ofS := tr.1, ofE := tr.2.1,
                      fin := tr.2.2 })
                (nameContEnds s (s.length + 1) a))
            (plusEnds isUpperAZ s q)
  else none

/-- Look-ahead alternative 1: `\bThe SPEAKER pro tempore\b`. -/
def speakerProTemAt (s : List Char) (i : Nat) : Bool :=
  wordBoundaryAt s i && litAt s i "The SPEAKER pro tempore".data &&
    (match s[i + 23]? with
     | some c => ! pyWord c
     | none => true)

/-- Look-ahead alternative 2:
`(Mr\.|Ms\.|Mrs\.|Miss)\s*Speaker,\s*I reserve the balance of my time`. -/
def reserveAt (s : List Char) (i : Nat) : Bool :=
  match titleAt s i with
  | none => false
  | some t =>
      let j := t + wsRun s t
      litAt s j "Speaker,".data &&
        litAt s (j + 8 + wsRun s (j + 8)) "I reserve the balance of my time".data

/-- Look-ahead alternative 4: the literal `<SPEAKER_BREAK>` token. -/
def breakTokAt (s : List Char) (i : Nat) : Bool :=
  litAt s i "<SPEAKER_BREAK>".data

/-- Look-ahead alternative 5: `$` (end of text, or just before a final
newline, as without `re.MULTILINE`). -/
def dollarAt (s : List Char) (i : Nat) : Bool :=
  i = s.length ||
    (i + 1 = s.length &&
      (match s[i]? with
       | some c => c = '\n'
       | none => false))

/-- `n` repetitions of `\s+[A-Z]+` (each run forced maximal). -/
def capsSeqAux (s : List Char) : Nat → Nat → Bool
  | 0, _ => true
  | n + 1, i =>
      let w := wsRun s i
      if w = 0 then false
      else
        let r := runLen isUpperAZ s (i + w)
        if r = 0 then false else capsSeqAux s n (i + w + r)

/-- Look-ahead alternative 6: five or more whitespace-separated
all-capital runs. -/
def capsRunAt (s : List Char) (i : Nat) : Bool :=
  runLen isUpperAZ s i ≥ 1 && capsSeqAux s 4 (i + runLen isUpperAZ s i)

/-- Whether some look-ahead alternative (a closer) matches at `i`. -/
def closerAt (s : List Char) (i : Nat) : Bool :=
  speakerProTemAt s i || reserveAt s i || (openerAt s i false).isSome ||
    breakTokAt s i || dollarAt s i || capsRunAt s i

/-- First position at or after `j` where a closer matches (`$` matches
at the end of text, so `fuel = s.length + 1 - j` always reaches one). -/
def closerIdxAux (s : List Char) : Nat → Nat → Nat
  | 0, j => j
  | fuel + 1, j => if closerAt s j then j else closerIdxAux s fuel (j + 1)

def closerIdx (s : List Char) (j : Nat) : Nat :=
  closerIdxAux s (s.length + 1 - j) j

/-- Leftmost position at or after `pos` where the opener matches. -/
def findOpenerAux (s : List Char) : Nat → Nat → Option (Nat × OpenerParse)
  | 0, _ => none
  | fuel + 1, p =>
      match openerAt s p true with
      | some op => some (p, op)
      | none => findOpenerAux s fuel (p + 1)

def findOpener (s : List Char) (pos : Nat) : Option (Nat × OpenerParse) :=
  findOpenerAux s (s.length + 1 - pos) pos

/-- One extracted record: `speaker = (match[1] + " " + match[2]).strip()`
(name capture and jurisdiction capture — the courtesy title is group 1
of the pattern and is *not* part of `match[1]`), and
`speech = match[3].strip()`. -/
structure SpeechRec where
  speaker : String
  speech : String
deriving DecidableEq

def sliceStr (s : List Char) (a b : Nat) : List Char :=
  (s.drop a).take (b - a)

def mkRec (s : List Char) (op : OpenerParse) : SpeechRec :=
  { speaker :=
      String.mk
        (stripWs (sliceStr s op.nameS op.nameE ++ [' '] ++
          sliceStr s op.ofS op.ofE))
    speech := String.mk (stripWs (sliceStr s op.fin (closerIdx s op.fin))) }

/-- `re.findall` driver: emit one record per opener found, resuming the
scan at the end of the matched region (every match is nonempty, so the
resume point strictly advances and `fuel = s.length + 2` suffices). -/
def extractLoop (s : List Char) : Nat → Nat → List SpeechRec
  | 0, _ => []
  | fuel + 1, pos =>
      match findOpener s pos with
      | none => []
      | some (p, op) =>
          mkRec s op ::
            extractLoop s fuel (max (closerIdx s op.fin) (p + 1))

/-- Segmentation of an already-normalized text. -/
def segmentText (s : String) : List SpeechRec :=
  extractLoop s.data (s.data.length + 2) 0

/-- `extract_speeches` on one document: normalize, then segment. -/
def extractSpeeches (content : String) : List SpeechRec :=
  segmentText (cleanText content)

/-! ## Auxiliary definitions for the statements below -/

/-- A degenerate but contract-conforming similarity scorer (score 100 on
equal strings, like every `fuzzywuzzy` scorer, 0 otherwise), used to
instantiate the abstract similarity parameter on concrete runs. -/
def simEq (a b : String) : Nat := if a = b then 100 else 0

/-- The original character before scan position `k`. -/
def prevAt (l : List Char) (k : Nat) : Option Char :=
  if k = 0 then none else l[k - 1]?

/-- The rule's step function fires nowhere in `l` (checked at every
position with its genuine preceding character). -/
def noRuleMatch (step : Option Char → List Char → Option (List Char × Nat))
    (l : List Char) : Bool :=
  (List.range l.length).all (fun k => (step (prevAt l k) (l.drop k)).isNone)

/-- Every whitespace character is a plain space not followed by another
whitespace character (so the whitespace-collapse rule rewrites the text
to itself). -/
def singleSpacedB : List Char → Bool
  | [] => true
  | [c] => ! pySpace c || c = ' '
  | c :: d :: rest =>
      (! pySpace c || (c = ' ' && ! pySpace d)) && singleSpacedB (d :: rest)

/-! ## Shared lemmas -/

theorem cleanupFoldFilter (df : List Row) (pats : List String) :
    cleanupLongNameMatches df pats =
      df.filter (fun r => ! pats.any (fun pat => rowSpeakerContains r pat)) := by
  induction pats generalizing df with
  | nil => simp [cleanupLongNameMatches]
  | cons p ps ih =>
      simp only [cleanupLongNameMatches, List.foldl_cons] at *
      rw [ih, List.filter_filter]
      congr 1
      funext r
      cases h1 : rowSpeakerContains r p <;>
        cases h2 : ps.any (fun pat => rowSpeakerContains r pat) <;>
          simp [h1, h2]

theorem mem_matchWithCriteria {rost : List Pol} {sp : List PSpeech}
    {K : List Col} {r : Row} (h : r ∈ matchWithCriteria rost sp K) :
    ∃ s p, s ∈ sp ∧ p ∈ rost ∧ keyMatchesB s p K = true ∧
      keyCount rost K p = 1 ∧ r = mkRowExact K s p := by
  unfold matchWithCriteria at h
  rw [List.mem_flatMap] at h
  obtain ⟨s, hs, hr⟩ := h
  rw [List.mem_map] at hr
  obtain ⟨p, hp, hre⟩ := hr
  rw [List.mem_filter] at hp
  obtain ⟨hpu, hmatch⟩ := hp
  unfold uniqueSubset at hpu
  rw [List.mem_filter] at hpu
  refine ⟨s, p, hs, hpu.1, hmatch, ?_, hre.symm⟩
  simpa using hpu.2

/-! ## Claims -/

/-- C8: `assign_congress_number` returns a missing result exactly when the
timestamp is missing, and on every timestamp of the covered era
(2015-01-03 to 2025-01-03) returns the congress whose
`[congressStart n, congressStart (n+1))` interval contains it; in
particular `[2017-01-03, 2019-01-03)` maps to 115 and
`[2021-01-03, 2023-01-03)` maps to 117. -/
theorem assignCongress_interval :
    (∀ x : Option Nat, assignCongressNumber x = none ↔ x = none) ∧
    (∀ n d : Nat, 114 ≤ n → n ≤ 118 →
      congressStart n ≤ d → d < congressStart (n + 1) →
      assignCongressNumber (some d) = some n) := by
  constructor
  · intro x
    cases x with
    | none => simp [assignCongressNumber]
    | some d =>
        simp only [assignCongressNumber]
        constructor
        · intro h
          split_ifs at h
        · intro h
          exact absurd h (by simp)
  · intro n d h1 h2 hs hlt
    interval_cases n <;>
      · simp only [congressStart] at hs hlt
        norm_num at hs hlt
        simp only [assignCongressNumber]
        split_ifs <;> first | rfl | omega

theorem assignCongress_interval_witness :
    assignCongressNumber (some 20180101) = some 115 ∧
    assignCongressNumber (some 20210104) = some 117 :=
  ⟨assignCongress_interval.2 115 20180101 (by norm_num) (by norm_num)
      (by norm_num [congressStart]) (by norm_num [congressStart]),
   assignCongress_interval.2 117 20210104 (by norm_num) (by norm_num)
      (by norm_num [congressStart]) (by norm_num [congressStart])⟩

/-- C9: `_cleanup_long_name_matches` removes exactly the rows whose
speaker fragment contains, case-insensitively, some substring of the
curated list (it is a pure filter, applied in `match_speakers` after
fuzzy acceptance), and the curated list is empty for every congress
without one. -/
theorem cleanup_exact_filter :
    (∀ df pats, cleanupLongNameMatches df pats =
        df.filter (fun r => ! pats.any (fun pat => rowSpeakerContains r pat))) ∧
    (∀ c, c ≠ 115 → c ≠ 116 → c ≠ 117 → c ≠ 118 → removePatterns c = []) := by
  constructor
  · exact cleanupFoldFilter
  · intro c h1 h2 h3 h4
    simp [removePatterns, h1, h2, h3, h4]

theorem cleanup_exact_filter_witness : removePatterns 114 = [] :=
  cleanup_exact_filter.2 114 (by decide) (by decide) (by decide) (by decide)

/-- C10: `match_speakers` hits the `assert len(congress) == 1` failure
whenever the firstName+lastName-only bucket does not carry exactly one
distinct congress number — in particular whenever that bucket is empty,
the whole run aborts instead of returning the other tiers' matches. -/
theorem matchSpeakers_assert_congress :
    ∀ (sim : String → String → Nat) (speeches : List Speech)
      (roster : List Pol) (ps : List PSpeech),
      speeches.mapM preprocessSpeech = some ps →
      (dedupKeepFirst
          ((ps.filter (fun s => s.first_name.isSome && s.state.isNone)).map
            (fun s => s.congress_number))).length ≠ 1 →
      matchSpeakers sim speeches roster = .error .assertionError := by
  intro sim speeches roster ps hps hne
  unfold matchSpeakers
  rw [hps]
  simp only
  rw [if_neg hne]

theorem matchSpeakers_assert_congress_witness :
    matchSpeakers simEq
      [{ idx := 0, speaker := "SMITH of Ohio", speech := "b",
         congress_number := 117 }] [] = .error .assertionError :=
  matchSpeakers_assert_congress simEq _ _
    [{ idx := 0, speaker := "smith", state := some "ohio", first_name := none,
       last_name := "smith", congress_number := 117, speech := "b" }]
    (by decide) (by decide)

/-- C1: every exact-tier output row joins a speech to a legislator whose
key tuple is unique across the whole roster, and a speech whose key
tuple occurs on two or more roster rows produces no exact-tier match. -/
theorem exactTier_unique_keys :
    (∀ rost sp K r, r ∈ matchWithCriteria rost sp K →
        ∃ s p, s ∈ sp ∧ p ∈ rost ∧ keyMatchesB s p K = true ∧
          keyCount rost K p = 1 ∧ r = mkRowExact K s p) ∧
    (∀ rost sp K s, s ∈ sp →
        (sp.map (fun x => x.idx)).Nodup →
        2 ≤ (rost.filter (fun p => keyMatchesB s p K)).length →
        ∀ r ∈ matchWithCriteria rost sp K, ¬ r.speech_id = some s.idx) := by
  constructor
  · exact fun _ _ _ _ h => mem_matchWithCriteria h
  · intro rost sp K s hs hnd hdup r hr heq
    obtain ⟨s2, p, hs2, hp, hm, hcount, hre⟩ := mem_matchWithCriteria hr
    have hsp : r.speech_id = some s2.idx := by rw [hre]; rfl
    rw [hsp] at heq
    have hidx : s2.idx = s.idx := by injection heq
    have hss : s2 = s := List.inj_on_of_nodup_map hnd hs2 hs hidx
    subst hss
    have hpro : ∀ q ∈ rost, keyMatchesB s2 q K = true →
        projKey K q = projKey K p := by
      intro q _ hq
      unfold projKey
      apply List.map_congr_left
      intro c hc
      unfold keyMatchesB at hq hm
      rw [List.all_eq_true] at hq hm
      have h1 := of_decide_eq_true (hq c hc)
      have h2 := of_decide_eq_true (hm c hc)
      rw [h1] at h2
      exact Option.some.inj h2
    have hle : (rost.filter (fun q => keyMatchesB s2 q K)).length ≤
        keyCount rost K p := by
      unfold keyCount
      rw [← List.countP_eq_length_filter, ← List.countP_eq_length_filter]
      apply List.countP_mono_left
      intro q hq hmq
      exact decide_eq_true (hpro q hq hmq)
    omega

theorem findOpenerAux_sound {s : List Char} :
    ∀ (fuel p p2 : Nat) (op : OpenerParse),
      findOpenerAux s fuel p = some (p2, op) →
      openerAt s p2 true = some op := by
  intro fuel
  induction fuel with
  | zero => intro p p2 op h; cases h
  | succ fuel ih =>
      intro p p2 op h
      simp only [findOpenerAux] at h
      cases ho : openerAt s p true with
      | some op2 =>
          rw [ho] at h
          injection h with h1
          injection h1 with hp hop
          subst hp
          subst hop
          exact ho
      | none =>
          rw [ho] at h
          exact ih _ _ _ h

theorem extractLoop_mem {s : List Char} :
    ∀ (fuel pos : Nat) (r : SpeechRec), r ∈ extractLoop s fuel pos →
      ∃ p op, openerAt s p true = some op ∧ r = mkRec s op := by
  intro fuel
  induction fuel with
  | zero => intro pos r h; simp [extractLoop] at h
  | succ fuel ih =>
      intro pos r h
      simp only [extractLoop] at h
      cases hf : findOpener s pos with
      | none => rw [hf] at h; simp at h
      | some v =>
          obtain ⟨p, op⟩ := v
          rw [hf] at h
          rcases List.mem_cons.mp h with h1 | h2
          · exact ⟨p, op, findOpenerAux_sound _ _ _ _ hf, h1⟩
          · exact ih _ _ h2

theorem closerIdxAux_min {s : List Char} :
    ∀ (fuel j i : Nat), j ≤ i → i < closerIdxAux s fuel j →
      closerAt s i = false := by
  intro fuel
  induction fuel with
  | zero =>
      intro j i hji hlt
      simp [closerIdxAux] at hlt
      omega
  | succ fuel ih =>
      intro j i hji hlt
      simp only [closerIdxAux] at hlt
      by_cases hc : closerAt s j
      · rw [if_pos hc] at hlt; omega
      · rw [if_neg hc] at hlt
        rcases Nat.eq_or_lt_of_le hji with he | hgt
        · subst he
          exact Bool.eq_false_iff.mpr hc
        · exact ih (j + 1) i hgt hlt

theorem prefB_iff : ∀ (n h : List Char), prefB n h = true ↔ h.take n.length = n := by
  intro n
  induction n with
  | nil => intro h; simp [prefB]
  | cons c t ih =>
      intro h
      cases h with
      | nil => simp [prefB]
      | cons c2 t2 =>
          simp only [prefB, Bool.and_eq_true, decide_eq_true_eq,
            List.length_cons, List.take_succ_cons, List.cons.injEq]
          constructor
          · rintro ⟨h1, h2⟩
            exact ⟨h1.symm, (ih t2).mp h2⟩
          · rintro ⟨h1, h2⟩
            exact ⟨h1.symm, (ih t2).mpr h2⟩

theorem containsTok_iff : ∀ (hay n : List Char),
    containsTok hay n = true ↔ ∃ i, prefB n (hay.drop i) = true := by
  intro hay
  induction hay with
  | nil =>
      intro n
      simp only [containsTok, List.drop_nil]
      exact ⟨fun h => ⟨0, h⟩, fun ⟨_, h⟩ => h⟩
  | cons c rest ih =>
      intro n
      simp only [containsTok, Bool.or_eq_true]
      constructor
      · rintro (h | h)
        · exact ⟨0, h⟩
        · obtain ⟨i, hi⟩ := (ih n).mp h
          exact ⟨i + 1, hi⟩
      · rintro ⟨i, hi⟩
        cases i with
        | zero => exact Or.inl hi
        | succ i => exact Or.inr ((ih n).mpr ⟨i, hi⟩)

theorem occ_take_bound {l n : List Char} {j i : Nat}
    (h : ((l.take j).drop i).take n.length = n) :
    ∃ i2, i2 + n.length ≤ j ∧ (l.drop i2).take n.length = n := by
  rw [List.drop_take, List.take_take] at h
  by_cases hle : n.length ≤ j - i
  · rw [min_eq_left hle] at h
    by_cases hij : i ≤ j
    · exact ⟨i, by omega, h⟩
    · have hj0 : j - i = 0 := by omega
      have hn0 : n.length = 0 := by omega
      rw [List.length_eq_zero] at hn0
      subst hn0
      exact ⟨0, by omega, by simp⟩
  · exfalso
    have hmin : n.length ⊓ (j - i) = j - i := Nat.min_eq_right (by omega)
    rw [hmin] at h
    have hlen : n.length ≤ j - i := by
      rw [← h]
      exact List.length_take_le _ _
    omega

theorem containsTok_drop {l n : List Char} {k : Nat}
    (h : containsTok (l.drop k) n = true) : containsTok l n = true := by
  obtain ⟨i, hi⟩ := (containsTok_iff _ _).mp h
  rw [List.drop_drop] at hi
  exact (containsTok_iff _ _).mpr ⟨k + i, hi⟩

theorem containsTok_take {l n : List Char} {j : Nat}
    (h : containsTok (l.take j) n = true) : containsTok l n = true := by
  obtain ⟨i, hi⟩ := (containsTok_iff _ _).mp h
  rw [prefB_iff] at hi
  obtain ⟨i2, _, h2⟩ := occ_take_bound hi
  exact (containsTok_iff _ _).mpr ⟨i2, (prefB_iff _ _).mpr h2⟩

theorem dropWhile_eq_drop (p : Char → Bool) :
    ∀ l : List Char, l.dropWhile p = l.drop ((l.takeWhile p).length) := by
  intro l
  induction l with
  | nil => rfl
  | cons c rest ih =>
      by_cases hc : p c
      · simp [List.dropWhile_cons, List.takeWhile_cons, hc, ih]
      · simp [List.dropWhile_cons, List.takeWhile_cons, hc]

theorem dropTrailingWs_take_form (l : List Char) :
    ∃ j, dropTrailingWs l = l.take j := by
  have hl : dropTrailingWs l ++ (l.reverse.takeWhile pySpace).reverse = l := by
    unfold dropTrailingWs
    rw [← List.reverse_append, List.takeWhile_append_dropWhile,
      List.reverse_reverse]
  refine ⟨(dropTrailingWs l).length, ?_⟩
  have h2 := congrArg (fun x => x.take (dropTrailingWs l).length) hl
  simp only at h2
  rw [List.take_left] at h2
  exact h2

theorem containsTok_stripWs {l n : List Char}
    (h : containsTok (stripWs l) n = true) : containsTok l n = true := by
  unfold stripWs at h
  obtain ⟨j, hj⟩ := dropTrailingWs_take_form (l.dropWhile pySpace)
  rw [hj] at h
  have h2 := containsTok_take h
  rw [dropWhile_eq_drop] at h2
  exact containsTok_drop h2

theorem containsTok_slice_pos {s n : List Char} {a b : Nat}
    (h : containsTok (sliceStr s a b) n = true) (hne : n ≠ []) :
    ∃ i, a ≤ i ∧ i + n.length ≤ b ∧ prefB n (s.drop i) = true := by
  unfold sliceStr at h
  obtain ⟨i0, hi0⟩ := (containsTok_iff _ _).mp h
  rw [prefB_iff] at hi0
  have hlen : 0 < n.length := List.length_pos.mpr hne
  obtain ⟨i2, hbound, h2⟩ := occ_take_bound (l := s.drop a) (j := b - a) hi0
  rw [List.drop_drop] at h2
  refine ⟨a + i2, by omega, by omega, (prefB_iff _ _).mpr h2⟩

/-- C7: on every normalized text containing the `<SPEAKER_BREAK>` token,
no emitted speech body contains the token — the token is a hard
segmentation boundary that no body spans across. -/
theorem segment_break_boundary :
    ∀ s : String, containsTok s.data "<SPEAKER_BREAK>".data = true →
      ∀ r ∈ segmentText s,
        containsTok r.speech.data "<SPEAKER_BREAK>".data = false := by
  intro s _ r hr
  obtain ⟨p, op, _, hrec⟩ := extractLoop_mem _ _ _ hr
  by_contra hcon
  rw [Bool.not_eq_false] at hcon
  rw [hrec] at hcon
  have h3 := containsTok_stripWs hcon
  obtain ⟨i, hai, hib, hpre⟩ := containsTok_slice_pos h3 (by decide)
  have hclose : closerAt s.data i = true := by
    simp [closerAt, breakTokAt, litAt, hpre]
  have hlen : 0 < "<SPEAKER_BREAK>".data.length := by decide
  have hmin := closerIdxAux_min (s := s.data)
    (s.data.length + 1 - op.fin) op.fin i hai (by
      unfold closerIdx at hib
      omega)
  rw [hclose] at hmin
  cases hmin

theorem segment_break_boundary_witness :
    containsTok
      ({ speaker := "SMITH of Ohio", speech := "hello." } : SpeechRec).speech.data
      "<SPEAKER_BREAK>".data = false :=
  segment_break_boundary
    "Mr. SMITH of Ohio. Mr. Speaker, hello. <SPEAKER_BREAK> tail"
    (by decide) ⟨"SMITH of Ohio", "hello."⟩ (by decide)

/-- C4 (amended): every record emitted by segmentation arises from an
opener parse; its speakerFragment is the concatenation of the capitalized
name tokens and the jurisdiction clause (the courtesy title is *not*
included — the source builds the speaker from capture groups 2 and 3,
dropping group 1), and its speechBody is the text between the opener's
end and the chosen closer's start, trimmed. -/
theorem segment_record_shape :
    ∀ s : String, ∀ r ∈ segmentText s,
      ∃ p op, openerAt s.data p true = some op ∧
        r.speaker = String.mk (stripWs
          (sliceStr s.data op.nameS op.nameE ++ [' '] ++
            sliceStr s.data op.ofS op.ofE)) ∧
        r.speech = String.mk (stripWs
          (sliceStr s.data op.fin (closerIdx s.data op.fin))) := by
  intro s r hr
  obtain ⟨p, op, hop, hrec⟩ := extractLoop_mem _ _ _ hr
  exact ⟨p, op, hop, by rw [hrec]; rfl, by rw [hrec]; rfl⟩

theorem segment_record_shape_witness :
    ∃ p op,
      openerAt "Mr. SMITH of Ohio. Mr. Speaker, hello. <SPEAKER_BREAK>".data
          p true = some op ∧
      ({ speaker := "SMITH of Ohio", speech := "hello." } : SpeechRec).speaker =
        String.mk (stripWs
          (sliceStr "Mr. SMITH of Ohio. Mr. Speaker, hello. <SPEAKER_BREAK>".data
              op.nameS op.nameE ++ [' '] ++
            sliceStr "Mr. SMITH of Ohio. Mr. Speaker, hello. <SPEAKER_BREAK>".data
              op.ofS op.ofE)) ∧
      ({ speaker := "SMITH of Ohio", speech := "hello." } : SpeechRec).speech =
        String.mk (stripWs
          (sliceStr "Mr. SMITH of Ohio. Mr. Speaker, hello. <SPEAKER_BREAK>".data
            op.fin
            (closerIdx "Mr. SMITH of Ohio. Mr. Speaker, hello. <SPEAKER_BREAK>".data
              op.fin))) :=
  segment_record_shape "Mr. SMITH of Ohio. Mr. Speaker, hello. <SPEAKER_BREAK>"
    ⟨"SMITH of Ohio", "hello."⟩ (by decide)

/-- C4 (counterexample): the emitted speakerFragment omits the courtesy
title: for this text it is "SMITH of Ohio", not the
"Mr. SMITH of Ohio" the claim's title+name+jurisdiction concatenation
prescribes. -/
theorem speaker_title_counterexample :
    segmentText "Mr. SMITH of Ohio. Mr. Speaker, hello. <SPEAKER_BREAK>" =
      [{ speaker := "SMITH of Ohio", speech := "hello." }] ∧
    ("SMITH of Ohio" : String) ≠ "Mr. SMITH of Ohio" := by
  exact ⟨by decide, by decide⟩

theorem extractLoop_empty {s : List Char}
    (h : ∀ p, openerAt s p true = none) :
    ∀ (fuel pos : Nat), extractLoop s fuel pos = [] := by
  intro fuel
  have hfind : ∀ fuel2 pos, findOpenerAux s fuel2 pos = none := by
    intro fuel2
    induction fuel2 with
    | zero => intro pos; rfl
    | succ fuel2 ih =>
        intro pos
        simp only [findOpenerAux, h pos]
        exact ih (pos + 1)
  induction fuel with
  | zero => intro pos; rfl
  | succ fuel ih =>
      intro pos
      simp only [extractLoop]
      unfold findOpener
      rw [hfind]

theorem litAt_nil_head {c : Char} {t : List Char} (i : Nat) :
    litAt [] i (c :: t) = false := by
  unfold litAt
  rw [List.drop_nil]
  rfl

theorem openerAt_nil (p : Nat) (wc : Bool) : openerAt [] p wc = none := by
  have ht : titleAt [] p = none := by
    unfold titleAt
    rw [show "Mr.".data = 'M' :: 'r' :: '.' :: [] from rfl,
      show "Ms.".data = 'M' :: 's' :: '.' :: [] from rfl,
      show "Mrs.".data = 'M' :: 'r' :: 's' :: '.' :: [] from rfl,
      show "Miss".data = 'M' :: 'i' :: 's' :: 's' :: [] from rfl,
      litAt_nil_head, litAt_nil_head, litAt_nil_head, litAt_nil_head]
    simp
  unfold openerAt
  rw [ht]
  split <;> rfl

/-- C6: a document whose normalized text contains no opener pattern —
including the empty text — segments to the empty sequence; a zero-result
outcome is an ordinary return value of the total extraction function,
not a failure. -/
theorem segment_no_opener_empty :
    ∀ content : String,
      (∀ p, openerAt (cleanTextL content.data) p true = none) →
      extractSpeeches content = [] := by
  intro content h
  have h1 : extractSpeeches content = segmentText (cleanText content) := rfl
  have h2a : cleanText content = String.mk (cleanTextL content.data) := rfl
  have h3 : ∀ Y : List Char, (String.mk Y).data = Y := fun _ => rfl
  have h2 : (cleanText content).data = cleanTextL content.data :=
    (congrArg String.data h2a).trans (h3 _)
  rw [h1]
  unfold segmentText
  rw [h2]
  exact extractLoop_empty h _ _

theorem segment_no_opener_empty_witness : extractSpeeches "" = [] :=
  segment_no_opener_empty ""
    (fun p => by
      rw [show cleanTextL "".data = [] from by decide]
      exact openerAt_nil p true)

theorem reSubScanAux_id
    {step : Option Char → List Char → Option (List Char × Nat)}
    {l : List Char}
    (h : ∀ k, k < l.length → step (prevAt l k) (l.drop k) = none) :
    ∀ (fuel k : Nat), l.length ≤ k + fuel →
      reSubScanAux step fuel (prevAt l k) (l.drop k) = l.drop k := by
  intro fuel
  induction fuel with
  | zero =>
      intro k hk
      have hnil : l.drop k = [] := List.drop_eq_nil_of_le (by omega)
      rw [hnil]
      rfl
  | succ fuel ih =>
      intro k hk
      cases hd : l.drop k with
      | nil => rfl
      | cons c rest =>
          have hk2 : k < l.length := by
            by_contra hc
            rw [List.drop_eq_nil_of_le (by omega)] at hd
            cases hd
          have hstep : step (prevAt l k) (c :: rest) = none := hd ▸ h k hk2
          simp only [reSubScanAux, hstep]
          have hrest : l.drop (k + 1) = rest := by
            rw [← List.drop_drop]
            rw [hd]
            rfl
          have hc : l[k]? = some c := by
            have h5 := List.getElem?_drop l k 0
            rw [hd] at h5
            have h6 : some c = l[k]? := by simpa using h5
            exact h6.symm
          have hprev : prevAt l (k + 1) = some c := by
            unfold prevAt
            simp [hc]
          have := ih (k + 1) (by omega)
          rw [hprev, hrest] at this
          rw [this]

theorem reSub_id {step : Option Char → List Char → Option (List Char × Nat)}
    {l : List Char} (h : noRuleMatch step l = true) : reSub step l = l := by
  have h2 : ∀ k, k < l.length → step (prevAt l k) (l.drop k) = none := by
    intro k hk
    have h3 := (List.all_eq_true.mp h) k (List.mem_range.mpr hk)
    simpa [Option.isNone_iff_eq_none] using h3
  have h4 := reSubScanAux_id h2 l.length 0 (by omega)
  simpa [prevAt, reSub] using h4

theorem singleSpacedB_tail {c : Char} {rest : List Char}
    (h : singleSpacedB (c :: rest) = true) : singleSpacedB rest = true := by
  cases rest with
  | nil => rfl
  | cons d r2 =>
      simp only [singleSpacedB, Bool.and_eq_true] at h
      exact h.2

theorem reSubScanAux_stepWs_id :
    ∀ (fuel : Nat) (cur : List Char) (prev : Option Char),
      cur.length ≤ fuel → singleSpacedB cur = true →
      reSubScanAux stepWs fuel prev cur = cur := by
  intro fuel
  induction fuel with
  | zero =>
      intro cur prev hlen _
      have : cur = [] := List.length_eq_zero.mp (by omega)
      rw [this]
      rfl
  | succ fuel ih =>
      intro cur prev hlen hss
      cases cur with
      | nil => rfl
      | cons c rest =>
          have hlen2 : rest.length ≤ fuel := by
            simp only [List.length_cons] at hlen
            omega
          by_cases hc : pySpace c = true
          · have hceq : c = ' ' := by
              cases rest with
              | nil =>
                  simp only [singleSpacedB, hc, Bool.not_true, Bool.false_or,
                    decide_eq_true_eq] at hss
                  exact hss
              | cons d r2 =>
                  simp only [singleSpacedB, hc, Bool.not_true, Bool.false_or,
                    Bool.and_eq_true, decide_eq_true_eq] at hss
                  exact hss.1.1
            have htw : rest.takeWhile pySpace = [] := by
              cases rest with
              | nil => rfl
              | cons d r2 =>
                  simp only [singleSpacedB, hc, Bool.not_true, Bool.false_or,
                    Bool.and_eq_true, decide_eq_true_eq] at hss
                  have hd : pySpace d = false := by simpa using hss.1.2
                  exact List.takeWhile_cons_of_neg (by simp [hd])
            have hstep : stepWs prev (c :: rest) = some ([' '], 0) := by
              simp [stepWs, hc, htw]
            have hpre : reSubScanAux stepWs (fuel + 1) prev (c :: rest) =
                ' ' :: reSubScanAux stepWs fuel (some c) rest := by
              simp only [reSubScanAux, hstep]
              rfl
            rw [hpre, ih rest (some c) hlen2 (singleSpacedB_tail hss), hceq]
          · have hstep : stepWs prev (c :: rest) = none := by
              simp [stepWs, hc]
            simp only [reSubScanAux, hstep]
            rw [ih rest (some c) hlen2 (singleSpacedB_tail hss)]

theorem dropWhile_dropWhile (p : Char → Bool) :
    ∀ l : List Char, (l.dropWhile p).dropWhile p = l.dropWhile p := by
  intro l
  induction l with
  | nil => rfl
  | cons c rest ih =>
      by_cases hc : p c = true
      · rw [List.dropWhile_cons_of_pos hc]
        exact ih
      · rw [List.dropWhile_cons_of_neg (by simpa using hc),
          List.dropWhile_cons_of_neg (by simpa using hc)]

theorem dropTrailingWs_idem (d : List Char) :
    dropTrailingWs (dropTrailingWs d) = dropTrailingWs d := by
  unfold dropTrailingWs
  rw [List.reverse_reverse, dropWhile_dropWhile]

theorem dropWhile_fix_head {c : Char} {t : List Char} (p : Char → Bool)
    (h : (c :: t).dropWhile p = c :: t) : p c = false := by
  by_contra hc
  have hpc : p c = true := by
    cases hpc2 : p c
    · exact absurd hpc2 hc
    · rfl
  rw [List.dropWhile_cons_of_pos hpc] at h
  have hlen := congrArg List.length h
  rw [dropWhile_eq_drop, List.length_drop] at hlen
  simp only [List.length_cons] at hlen
  omega

theorem dropWhile_take_fix {d : List Char} (p : Char → Bool)
    (hfix : d.dropWhile p = d) (j : Nat) :
    (d.take j).dropWhile p = d.take j := by
  cases d with
  | nil => simp
  | cons c t =>
      cases j with
      | zero => rfl
      | succ j =>
          rw [List.take_succ_cons,
            List.dropWhile_cons_of_neg (by simp [dropWhile_fix_head p hfix])]

theorem stripWs_idem (l : List Char) : stripWs (stripWs l) = stripWs l := by
  unfold stripWs
  have hfix : (l.dropWhile pySpace).dropWhile pySpace = l.dropWhile pySpace :=
    dropWhile_dropWhile pySpace l
  obtain ⟨j, hj⟩ := dropTrailingWs_take_form (l.dropWhile pySpace)
  have h1 : (dropTrailingWs (l.dropWhile pySpace)).dropWhile pySpace =
      dropTrailingWs (l.dropWhile pySpace) := by
    rw [hj]
    exact dropWhile_take_fix pySpace hfix j
  rw [h1, dropTrailingWs_idem]

theorem stripWs_cleanTextL (z : List Char) :
    stripWs (cleanTextL z) = cleanTextL z := by
  unfold cleanTextL
  exact stripWs_idem _

/-- C5 (amended): the normalizer is idempotent on every input whose
normalized form gives none of the substitution rules a match and carries
only single plain spaces; in general idempotence fails even without the
break-marker/newline interaction, because the removal rules can leave
double spaces behind (see the counterexample). -/
theorem normalize_idem_amended :
    ∀ x : String,
      noRuleMatch stepBreak (cleanText x).data = true →
      singleSpacedB (cleanText x).data = true →
      noRuleMatch stepNl (cleanText x).data = true →
      noRuleMatch stepHyphen (cleanText x).data = true →
      noRuleMatch (stepTmpl tmplJkt) (cleanText x).data = true →
      noRuleMatch (stepTmpl tmplPath) (cleanText x).data = true →
      noRuleMatch (stepTmpl tmplDM) (cleanText x).data = true →
      noRuleMatch (stepTmpl tmplVer) (cleanText x).data = true →
      noRuleMatch stepHeader (cleanText x).data = true →
      noRuleMatch (stepTmpl tmplPdnted) (cleanText x).data = true →
      cleanText (cleanText x) = cleanText x := by
  intro x h1 h2 h3 h4 h5 h6 h7 h8 h9 h10
  have heta : ∀ s : String, String.mk s.data = s := fun _ => rfl
  have hmkdata : ∀ Y : List Char, (String.mk Y).data = Y := fun _ => rfl
  have hdata : (cleanText x).data = cleanTextL x.data :=
    (congrArg String.data
      (rfl : cleanText x = String.mk (cleanTextL x.data))).trans (hmkdata _)
  have hws : reSub stepWs (cleanText x).data = (cleanText x).data :=
    reSubScanAux_stepWs_id _ _ _ (by omega) h2
  have hmain : cleanTextL (cleanText x).data = (cleanText x).data := by
    unfold cleanTextL
    rw [reSub_id h1, hws, reSub_id h3, reSub_id h4, reSub_id h5,
      reSub_id h6, reSub_id h7, reSub_id h8, reSub_id h9, reSub_id h10,
      hdata]
    exact stripWs_cleanTextL x.data
  calc cleanText (cleanText x)
      = String.mk (cleanTextL (cleanText x).data) := rfl
    _ = String.mk (cleanText x).data := by rw [hmain]
    _ = cleanText x := heta _

theorem normalize_idem_amended_witness :
    cleanText (cleanText "I am here.") = cleanText "I am here." :=
  normalize_idem_amended "I am here." (by decide) (by decide) (by decide)
    (by decide) (by decide) (by decide) (by decide) (by decide) (by decide)
    (by decide)

/-- C5 (counterexample): the normalizer is not idempotent on
"a CONGRESSIONAL b" — an input with no newline at all, hence outside the
break-marker/newline interaction the claim already exempts: the
header-word removal leaves a double space that a second normalization
collapses. -/
theorem normalize_idem_counterexample :
    cleanText "a CONGRESSIONAL b" = "a  b" ∧
    cleanText (cleanText "a CONGRESSIONAL b") = "a b" ∧
    ("a  b" : String) ≠ "a b" ∧
    ("a CONGRESSIONAL b".data.all (fun c => ! decide (c = '\n'))) = true := by
  exact ⟨by decide, by decide, by decide, by decide⟩

/-- C2: the fuzzy-tier residual is computed with
`~df_all_three.index.isin(df_matched_all_3.index)`, but `pd.merge` gives
the matched frame a fresh RangeIndex `0..m-1`, so the all-three speeches
excluded from the fuzzy tier are those with dataframe index below the
number of exact matches — not the exact-matched ones.  On this congress
114 input (whose curated pattern list is empty, so the run completes:
the bucket-4 speech "jane doe" finds no accepted fuzzy match and the
cleanup receives the column-less empty frame, which only a nonempty
pattern list would turn into a KeyError) the exact-matched speech
(index 1) is fuzzy-matched a second time and appears twice in the
output, while the exactly-unmatched speech (index 0) is silently
dropped instead of being handed to the fuzzy tier. -/
theorem matchSpeakers_index_bug :
    matchSpeakers simEq
      [⟨0, "JOHN NOMATCH of Ohio", "sp0", 114⟩,
       ⟨1, "JOHN SMITH of Ohio", "sp1", 114⟩,
       ⟨2, "JANE DOE", "sp2", 114⟩]
      [⟨"John Smith", "John", "Smith", "ohio"⟩] =
      .ok
        [⟨some 1, some "john smith", some "sp1", some 114, some "ohio",
          some "john", some "smith", some "john smith",
          some "state, first_name, last_name", some 100⟩,
         ⟨some 1, some "john smith", some "sp1", some 114, some "ohio",
          some "john", some "smith", some "john smith",
          some "long_name, state", some 100⟩] := by
  decide

/-- The error path the cleanup takes on the column-less empty frame: the
same speeches under congress 117, whose pattern list is nonempty, crash
in `_cleanup_long_name_matches` on `df["speaker"]` instead of producing
any output. -/
theorem matchSpeakers_keyError_on_columnless :
    matchSpeakers simEq
      [⟨0, "JOHN NOMATCH of Ohio", "sp0", 117⟩,
       ⟨1, "JOHN SMITH of Ohio", "sp1", 117⟩,
       ⟨2, "JANE DOE", "sp2", 117⟩]
      [⟨"John Smith", "John", "Smith", "ohio"⟩] = .error .keyError := by
  decide

theorem dedupKeepFirstAux_subset {α : Type} [DecidableEq α] :
    ∀ (fuel : Nat) (l : List α) (r : α),
      r ∈ dedupKeepFirstAux fuel l → r ∈ l := by
  intro fuel
  induction fuel with
  | zero =>
      intro l r h
      cases l with
      | nil => simpa [dedupKeepFirstAux] using h
      | cons x t => simpa [dedupKeepFirstAux] using h
  | succ fuel ih =>
      intro l r h
      cases l with
      | nil => simpa [dedupKeepFirstAux] using h
      | cons x t =>
          simp only [dedupKeepFirstAux] at h
          rcases List.mem_cons.mp h with h1 | h2
          · exact h1 ▸ List.mem_cons_self x t
          · exact List.mem_cons_of_mem _ (List.mem_filter.mp (ih _ _ h2)).1

theorem dedupKeepFirst_subset {α : Type} [DecidableEq α] {l : List α} {r : α}
    (h : r ∈ dedupKeepFirst l) : r ∈ l :=
  dedupKeepFirstAux_subset _ _ _ h

theorem bestCandidate_score {sim : String → String → Nat} {spk : String} :
    ∀ (names : List String) (acc : Option (String × Nat)),
      (∀ n sc, acc = some (n, sc) → sc = sim spk n) →
      ∀ nm sc, names.foldl (bcStep sim spk) acc = some (nm, sc) →
        sc = sim spk nm := by
  intro names
  induction names with
  | nil => intro acc hacc nm sc h; exact hacc nm sc h
  | cons n2 rest ih =>
      intro acc hacc nm sc h
      refine ih (bcStep sim spk acc n2) ?_ nm sc h
      intro n3 sc3 hstep
      cases acc with
      | none =>
          simp only [bcStep] at hstep
          injection hstep with h1
          injection h1 with ha hb
          subst ha
          exact hb.symm
      | some v =>
          obtain ⟨bn, bs⟩ := v
          simp only [bcStep] at hstep
          by_cases hgt : sim spk n2 > bs
          · rw [if_pos hgt] at hstep
            injection hstep with h1
            injection h1 with ha hb
            subst ha
            exact hb.symm
          · rw [if_neg hgt] at hstep
            injection hstep with h1
            injection h1 with ha hb
            subst ha
            rw [← hb]
            exact hacc bn bs rfl

theorem fuzzyAccept_spec {sim : String → String → Nat} {cands : List Pol}
    {threshold : Nat} {spk mbv : String} {p : Pol} {sc : Nat} {mb : String}
    (h100 : ∀ a b, sim a b ≤ 100)
    (h : fuzzyAccept sim cands threshold spk mbv = some (p, sc, mb)) :
    threshold ≤ sc ∧ sc ≤ 100 ∧ mb = mbv := by
  unfold fuzzyAccept at h
  cases hbc : bestCandidate sim spk (cands.map (fun (p : Pol) => p.name)) with
  | none => rw [hbc] at h; cases h
  | some v =>
      obtain ⟨nm, score⟩ := v
      rw [hbc] at h
      simp only at h
      by_cases hge : score ≥ threshold
      · rw [if_pos hge] at h
        cases hf : cands.find? (fun (p : Pol) => decide (p.name = nm)) with
        | none => rw [hf] at h; cases h
        | some p2 =>
            rw [hf] at h
            injection h with h1
            injection h1 with hp hrest
            injection hrest with hsc hmb
            subst hsc
            have hscore : score = sim spk nm :=
              bestCandidate_score _ none (by intro _ _ hh; cases hh) nm score hbc
            exact ⟨hge, by rw [hscore]; exact h100 _ _, hmb.symm⟩
      · rw [if_neg hge] at h
        cases h

theorem fuzzyOne_spec {sim : String → String → Nat} {rost : List Pol}
    {threshold : Nat} {s : PSpeech} {p : Pol} {sc : Nat} {mb : String}
    (h100 : ∀ a b, sim a b ≤ 100)
    (h : fuzzyOne sim rost threshold s = some (p, sc, mb)) :
    threshold ≤ sc ∧ sc ≤ 100 ∧
      (mb = "long_name, state" ∨ mb = "long_name") := by
  unfold fuzzyOne at h
  obtain ⟨h1, h2, h3⟩ := fuzzyAccept_spec h100 h
  refine ⟨h1, h2, ?_⟩
  rw [h3]
  cases s.state.isSome <;> simp

theorem padRows_mem :
    ∀ (sp : List PSpeech) (best : List (Pol × Nat × String)) (r : Row),
      r ∈ padRows sp best →
      (r.matched_by = none ∧ r.similarity_score = none) ∨
      ∃ b ∈ best, r.matched_by = some b.2.2 ∧
        r.similarity_score = some b.2.1 := by
  intro sp
  induction sp with
  | nil => intro best r h; simp [padRows] at h
  | cons s ss ih =>
      intro best r h
      cases best with
      | nil =>
          simp only [padRows, List.mem_cons] at h
          rcases h with h1 | h2
          · left; rw [h1]; exact ⟨rfl, rfl⟩
          · rcases ih [] r h2 with hl | ⟨b, hb, _⟩
            · exact Or.inl hl
            · simp at hb
      | cons b bs =>
          obtain ⟨p, score, mb⟩ := b
          simp only [padRows, List.mem_cons] at h
          rcases h with h1 | h2
          · right
            exact ⟨(p, score, mb), List.mem_cons_self _ _, by rw [h1], by rw [h1]⟩
          · rcases ih bs r h2 with hl | ⟨b2, hb2, hmb2, hsc2⟩
            · exact Or.inl hl
            · exact Or.inr ⟨b2, List.mem_cons_of_mem _ hb2, hmb2, hsc2⟩

theorem fuzzy_rows {sim : String → String → Nat} {rost : List Pol}
    {sp : List PSpeech} {threshold : Nat} (h100 : ∀ a b, sim a b ≤ 100) :
    ∀ r ∈ matchByFuzzyLongName sim rost sp threshold,
      (r.matched_by = none ∧ r.similarity_score = none) ∨
      ∃ mb sc, r.matched_by = some mb ∧ r.similarity_score = some sc ∧
        threshold ≤ sc ∧ sc ≤ 100 ∧
        (mb = "long_name, state" ∨ mb = "long_name") := by
  intro r hr
  unfold matchByFuzzyLongName at hr
  by_cases hbe : (sp.filterMap (fuzzyOne sim rost threshold)).isEmpty
  · rw [if_pos hbe] at hr
    simp at hr
  · rw [if_neg hbe] at hr
    rcases padRows_mem _ _ _ hr with hl | ⟨b, hb, hmb, hsc⟩
    · exact Or.inl hl
    · obtain ⟨s, _, hfo⟩ := List.mem_filterMap.mp hb
      obtain ⟨p2, sc2, mb2⟩ := b
      obtain ⟨hth, hle, hor⟩ := fuzzyOne_spec h100 hfo
      exact Or.inr ⟨mb2, sc2, hmb, hsc, hth, hle, hor⟩

theorem row_disjunct_of_fuzzy {r : Row}
    (h : (r.matched_by = none ∧ r.similarity_score = none) ∨
      ∃ mb sc, r.matched_by = some mb ∧ r.similarity_score = some sc ∧
        50 ≤ sc ∧ sc ≤ 100 ∧
        (mb = "long_name, state" ∨ mb = "long_name")) :
    (r.matched_by = none ∧ r.similarity_score = none) ∨
    ∃ mb sc, r.matched_by = some mb ∧ r.similarity_score = some sc ∧
      (containsTok mb.data "long_name".data = false → sc = 100) ∧
      (containsTok mb.data "long_name".data = true → 50 ≤ sc ∧ sc ≤ 100) := by
  rcases h with hl | ⟨mb, sc, h1, h2, h3, h4, h5⟩
  · exact Or.inl hl
  · right
    refine ⟨mb, sc, h1, h2, ?_, fun _ => ⟨h3, h4⟩⟩
    intro hf
    rcases h5 with h5 | h5 <;> rw [h5] at hf
    · exact absurd hf (by decide)
    · exact absurd hf (by decide)

theorem row_disjunct_of_exact {K : List Col} {s : PSpeech} {p : Pol} {r : Row}
    (hr : r = mkRowExact K s p)
    (hK : containsTok (commaJoinStr (K.map colName)).data
        "long_name".data = false) :
    (r.matched_by = none ∧ r.similarity_score = none) ∨
    ∃ mb sc, r.matched_by = some mb ∧ r.similarity_score = some sc ∧
      (containsTok mb.data "long_name".data = false → sc = 100) ∧
      (containsTok mb.data "long_name".data = true → 50 ≤ sc ∧ sc ≤ 100) := by
  right
  refine ⟨commaJoinStr (K.map colName), 100, by rw [hr]; rfl,
    by rw [hr]; rfl, fun _ => rfl, ?_⟩
  intro htr
  rw [hK] at htr
  exact absurd htr (by decide)

/-- C3 (amended): every row of a successful `match_speakers` output
either carries absent matchedBy and similarityScore (NaN padding of the
positional fuzzy concatenation for speeches that found no accepted
match), or its matchedBy does not contain "long_name" and the score is
exactly 100, or its matchedBy contains "long_name" and the score lies in
the closed interval [threshold, 100] — the fuzzy tier can attain 100. -/
theorem score_invariant_amended :
    ∀ (sim : String → String → Nat) (speeches : List Speech)
      (roster : List Pol) (out : List Row),
      (∀ a b, sim a b ≤ 100) →
      matchSpeakers sim speeches roster = .ok out →
      ∀ r ∈ out,
        (r.matched_by = none ∧ r.similarity_score = none) ∨
        ∃ mb sc, r.matched_by = some mb ∧ r.similarity_score = some sc ∧
          (containsTok mb.data "long_name".data = false → sc = 100) ∧
          (containsTok mb.data "long_name".data = true →
            50 ≤ sc ∧ sc ≤ 100) := by
  intro sim speeches roster out h100 heq r hr
  unfold matchSpeakers at heq
  cases hm : speeches.mapM preprocessSpeech with
  | none => rw [hm] at heq; cases heq
  | some ps =>
      rw [hm] at heq
      simp only at heq
      by_cases hc :
        (dedupKeepFirst
            ((ps.filter (fun s => s.first_name.isSome && s.state.isNone)).map
              (fun s => s.congress_number))).length = 1
      · rw [if_pos hc] at heq
        split at heq
        · cases heq
        injection heq with hout
        rw [← hout] at hr
        unfold finalizeMatchedDataset at hr
        have hr2 := dedupKeepFirst_subset hr
        simp only [List.mem_append] at hr2
        rcases hr2 with (((h1 | h2) | h3) | h4) | h5
        · obtain ⟨s, p, _, _, _, _, hre⟩ := mem_matchWithCriteria h1
          exact row_disjunct_of_exact hre (by decide)
        · obtain ⟨s, p, _, _, _, _, hre⟩ := mem_matchWithCriteria h2
          exact row_disjunct_of_exact hre (by decide)
        · obtain ⟨s, p, _, _, _, _, hre⟩ := mem_matchWithCriteria h3
          exact row_disjunct_of_exact hre (by decide)
        · exact row_disjunct_of_fuzzy (fuzzy_rows h100 r h4)
        · rw [cleanupFoldFilter] at h5
          exact row_disjunct_of_fuzzy
            (fuzzy_rows h100 r (List.mem_filter.mp h5).1)
      · rw [if_neg hc] at heq
        cases heq

theorem score_invariant_amended_witness :
    ((⟨some 0, some "john smith", some "sp", some 117, some "ohio",
        some "john", some "smith", some "john smith", some "long_name",
        some 100⟩ : Row).matched_by = none ∧
      (⟨some 0, some "john smith", some "sp", some 117, some "ohio",
        some "john", some "smith", some "john smith", some "long_name",
        some 100⟩ : Row).similarity_score = none) ∨
    ∃ mb sc,
      (⟨some 0, some "john smith", some "sp", some 117, some "ohio",
        some "john", some "smith", some "john smith", some "long_name",
        some 100⟩ : Row).matched_by = some mb ∧
      (⟨some 0, some "john smith", some "sp", some 117, some "ohio",
        some "john", some "smith", some "john smith", some "long_name",
        some 100⟩ : Row).similarity_score = some sc ∧
      (containsTok mb.data "long_name".data = false → sc = 100) ∧
      (containsTok mb.data "long_name".data = true → 50 ≤ sc ∧ sc ≤ 100) :=
  score_invariant_amended simEq [⟨0, "JOHN SMITH", "sp", 117⟩]
    [⟨"John Smith", "John", "Smith", "ohio"⟩]
    [⟨some 0, some "john smith", some "sp", some 117, some "ohio",
      some "john", some "smith", some "john smith", some "long_name",
      some 100⟩]
    (fun a b => by by_cases h : a = b <;> simp [simEq, h])
    (by decide) _ (by decide)

/-- C3 (counterexample): a fuzzy-tier row can carry similarityScore
exactly 100 (here the similarity scorer gives the identical strings
score 100, as `fuzzywuzzy` does), refuting the half-open upper bound
`similarityScore < 100` for "long_name" rows. -/
theorem fuzzy_score_100_counterexample :
    matchSpeakers simEq [⟨0, "JOHN SMITH", "sp", 117⟩]
        [⟨"John Smith", "John", "Smith", "ohio"⟩] =
      .ok [⟨some 0, some "john smith", some "sp", some 117, some "ohio",
        some "john", some "smith", some "john smith", some "long_name",
        some 100⟩] ∧
    containsTok "long_name".data "long_name".data = true ∧
    ¬ (100 : Nat) < 100 := by
  refine ⟨by decide, by decide, by omega⟩

theorem exactTier_unique_keys_witness :
    ¬ (mkRowExact [Col.state, Col.last_name]
        ⟨8, "e", some "utah", none, "e", 117, "y"⟩
        ⟨"d e", "d", "e", "utah"⟩).speech_id = some 7 :=
  exactTier_unique_keys.2
    [⟨"a b", "a", "b", "ohio"⟩, ⟨"c b", "c", "b", "ohio"⟩,
     ⟨"d e", "d", "e", "utah"⟩]
    [⟨7, "b", some "ohio", none, "b", 117, "x"⟩,
     ⟨8, "e", some "utah", none, "e", 117, "y"⟩]
    [Col.state, Col.last_name]
    ⟨7, "b", some "ohio", none, "b", 117, "x"⟩
    (by decide) (by decide) (by decide) _ (by decide)
